import Mathlib

/-!
Shallow embedding of the `stama` hierarchical state-machine library
(`src/stama/__init__.py`) and verification of its specification.

Modelling conventions:
* Nodes live in an arena `List NodeData`; a node is identified by its index.
  Parent/child and all destination references are indices (arena + index
  translation of the bidirectional object graph).
* Hook callbacks (`on_entry`, `on_exit`, `enforce`, and the event hooks
  `on_before_transition` / `on_during_transition` / `on_after_transition`)
  are modelled as trace entries emitted in exactly the order the Python code
  invokes them; the assignment `self._current_state = final_destination` is
  likewise recorded as a `commit` trace entry so that its position relative
  to the hooks is visible.
* Guard conditions and junction predicates read external state in Python;
  for a resolution pass they are modelled by their boolean outcome.
* Python exceptions are modelled by `TResult.err`, carrying the machine
  state and the hooks already run when the exception escaped
  (`attrError` stands for the AttributeError/TypeError raised when `None`
  is dereferenced; `eventNotHandled` for `SMEventNotHandledException`).
* Loops that walk parent pointers or descend into composites are given
  fuel `arena.length + 1`; on a well-formed tree (strictly decreasing
  parent indices) the fuel is never exhausted, and fuel exhaustion models
  the Python code looping forever on a malformed graph
  (`TResult.err .nonTermination`).
* The reentrant lock is not modelled: all execution is single-threaded
  and synchronous, as in §5 of the specification.
-/

/-- Preferred-entry mode of a composite state: the three string constants
`STARTING_STATE`, `SHALLOW_HISTORY`, `DEEP_HISTORY` of the source. -/
inductive PreferredEntry where
  | startingState
  | shallowHistory
  | deepHistory
deriving DecidableEq, Repr

/-- Node kind: `State` (leaf-capable), `SuperState` (composite, with its
`starting_state` and `_preferred_entry`), or `ConditionalJunction` (with its
ordered `condition_list`, each predicate replaced by its boolean outcome,
and its mandatory `default_state`). -/
inductive NodeKind where
  | simple
  | composite (startingState : Option Nat) (preferredEntry : PreferredEntry)
  | junction (conditionList : List (Bool × Nat)) (defaultState : Nat)
deriving DecidableEq, Repr

/-- A value stored in a transition table: a direct destination node, or a
`Guard` (condition outcome + wrapped destination). -/
inductive TValue where
  | toState (s : Nat)
  | toGuard (cond : Bool) (s : Nat)
deriving DecidableEq, Repr

/-- One node of the graph: `_parent`, its kind, and its `transitions`
dict as an association list; a key mapped to `none` is a key present in the
Python dict with value `None` (internal transition). -/
structure NodeData where
  parent : Option Nat
  kind : NodeKind
  transitions : List (Nat × Option TValue)
deriving DecidableEq, Repr

instance : Inhabited NodeData := ⟨⟨none, .simple, []⟩⟩

/-- The machine: the (immutable) node arena, `_current_state`, and the
mutable `_deep_history` / `_shallow_history` slots of every node, stored
as parallel lists indexed by node id (a slot of a non-composite node is
simply never used). -/
structure Machine where
  arena : List NodeData
  current : Option Nat
  deepHist : List (Option Nat)
  shallowHist : List (Option Nat)
deriving DecidableEq, Repr

/-- A hook invocation (or the commit of `_current_state`), as recorded in
the execution trace. -/
inductive HookCall where
  | before (e : Nat)
  | during (e : Nat)
  | after (e : Nat)
  | exitS (s : Nat)
  | entryS (s : Nat)
  | enforceS (s : Nat)
  | commit (s : Option Nat)
  | machEnforce
deriving DecidableEq, Repr

/-- A Python exception escaping the engine (or divergence of a loop). -/
inductive Err where
  | eventNotHandled
  | attrError
  | nonTermination
deriving DecidableEq, Repr

/-- Result of running a piece of the engine: normal return or exception,
in both cases with the machine state reached and the hooks already run. -/
inductive TResult where
  | ok (m : Machine) (tr : List HookCall)
  | err (e : Err) (m : Machine) (tr : List HookCall)
deriving DecidableEq, Repr

/-- Arena lookup; out-of-range ids never occur on well-formed input. -/
def nodeOf (as : List NodeData) (i : Nat) : NodeData :=
  (as.get? i).getD default

/-- Accessor for the `parent` property of a node. -/
def parentOf (as : List NodeData) (i : Nat) : Option Nat :=
  (nodeOf as i).parent

/-- Accessor for the kind of a node. -/
def kindOf (as : List NodeData) (i : Nat) : NodeKind :=
  (nodeOf as i).kind

/-- Lookup of `event` in a node's `transitions` dict: `none` = key absent,
`some none` = key present with value `None`, `some (some v)` = destination
or guard. -/
def lookupTrans (as : List NodeData) (s e : Nat) : Option (Option TValue) :=
  (nodeOf as s).transitions.lookup e

/-- Read a history slot (`_deep_history` or `_shallow_history`). -/
def histGet (h : List (Option Nat)) (i : Nat) : Option Nat :=
  (h.get? i).getD none

/-- Fuelled walk of parent pointers, accumulating the ancestors of `s`
nearest first: the body of the `while` loop of `_get_ancestors`. -/
def ancestryFrom (as : List NodeData) : Nat → Nat → List Nat
  | 0, _ => []
  | fuel + 1, s =>
    match parentOf as s with
    | none => []
    | some p => p :: ancestryFrom as fuel p

/-- Embedding of `_get_ancestors(state)`: the empty list for `None`,
otherwise the chain of ancestors of `state`, nearest first (the state
itself excluded). -/
def getAncestors (as : List NodeData) : Option Nat → List Nat
  | none => []
  | some s => ancestryFrom as (as.length + 1) s

/-- Embedding of `_get_common_ancestor(x, y)`: the first element of `x`
that occurs in `y`, else `None`. -/
def getCommonAncestor (x y : List Nat) : Option Nat :=
  x.find? (fun i => decide (i ∈ y))

/-- Embedding of `StateMachine._figure_out_ancestry`. -/
def figureOutAncestry (as : List NodeData) (origin dest : Option Nat) : Option Nat :=
  getCommonAncestor (getAncestors as origin) (getAncestors as dest)

/-- The slice `ancestry[: ancestry.index(common_ancestor)]` shared by
`_exit_current_state` and `_enter_destination_state` (the whole list when
the common ancestor is `None`).  At both call sites the common ancestor,
when not `None`, was found in the very same list by
`_get_common_ancestor`, so Python's `.index` cannot raise there. -/
def uncommonAncestors (ancestry : List Nat) (ca : Option Nat) : List Nat :=
  match ca with
  | none => ancestry
  | some c => ancestry.take (ancestry.indexOf c)

/-- Embedding of `ConditionalJunction.evaluate`: destination of the first
true condition, else the default state. -/
def evaluateJunction (conditionList : List (Bool × Nat)) (defaultState : Nat) : Nat :=
  match conditionList.find? (fun p => p.1) with
  | some p => p.2
  | none => defaultState

/-- Embedding of `Guard.evaluate`: the wrapped state if the condition
holds, else `None`. -/
def guardEvaluate (cond : Bool) (s : Nat) : Option Nat :=
  if cond then some s else none

/-- Embedding of `StateMachine._get_final_destination`: descend while the
destination is a `SuperState`, following its preferred-entry mode
(starting child, deep-history slot, or shallow-history slot; a missing
slot yields Python `None`, which simply falls out of the loop).  Returns
`none` on fuel exhaustion (the Python loop would not terminate). -/
def getFinalDestination (m : Machine) : Nat → Option Nat → Option (Option Nat)
  | 0, _ => none
  | _, none => some none
  | fuel + 1, some d =>
    match kindOf m.arena d with
    | .composite st pe =>
      let next : Option Nat :=
        match pe with
        | .startingState => st
        | .deepHistory => histGet m.deepHist d
        | .shallowHistory => histGet m.shallowHist d
      getFinalDestination m fuel next
    | _ => some (some d)

/-- Embedding of `StateMachine._get_handling_state`: walk upward from the
origin while the event is not in the node's transition table; `none` when
the root is passed without a match (the `SMEventNotHandledException`
branch; fuel exhaustion, impossible on a well-formed tree, is folded into
the same `none`). -/
def getHandlingState (as : List NodeData) (e : Nat) : Nat → Nat → Option Nat
  | 0, _ => none
  | fuel + 1, s =>
    if (lookupTrans as s e).isSome then some s
    else
      match parentOf as s with
      | some p => getHandlingState as e fuel p
      | none => none

/-- Embedding of `StateMachine._proceess_uncommon_origin_ancestors`: for
each uncommon origin ancestor, nearest first, run its `on_exit`, set its
`_deep_history` to the origin state and its `_shallow_history` to the
child it is being exited through. -/
def processUncommonOriginAncestors (origin : Option Nat) :
    Machine → List Nat → Option Nat → Machine × List HookCall
  | m, [], _ => (m, [])
  | m, s :: rest, child =>
    let m1 : Machine :=
      { m with
        deepHist := m.deepHist.set s origin
        shallowHist := m.shallowHist.set s child }
    let r := processUncommonOriginAncestors origin m1 rest (some s)
    (r.1, HookCall.exitS s :: r.2)

/-- Embedding of `StateMachine._exit_current_state`. -/
def exitCurrentState (m : Machine) (origin : Option Nat) (ca : Option Nat) :
    Machine × List HookCall :=
  let originAncestry := getAncestors m.arena origin
  let uncommon := uncommonAncestors originAncestry ca
  let tr0 : List HookCall :=
    match origin with
    | none => []
    | some o => [HookCall.exitS o]
  let r := processUncommonOriginAncestors origin m uncommon origin
  (r.1, tr0 ++ r.2)

/-- Embedding of `StateMachine._enter_destination_state`: enter the
uncommon destination ancestors outermost first, then the destination
itself; entering a `None` destination raises (AttributeError). -/
def enterDestinationState (as : List NodeData) (dest : Option Nat) (ca : Option Nat) :
    List HookCall × Option Err :=
  let destAncestry := getAncestors as dest
  let uncommon := (uncommonAncestors destAncestry ca).reverse
  let tr := uncommon.map HookCall.entryS
  match dest with
  | none => (tr, some .attrError)
  | some d => (tr ++ [HookCall.entryS d], none)

/-- Embedding of `StateMachine._enforce_all_relevant_states`: enforce the
(just committed) current state, then every ancestor of the destination
nearest first, then the machine-level enforce. -/
def enforceAllRelevantStates (as : List NodeData) (cur : Option Nat) (dest : Option Nat) :
    List HookCall × Option Err :=
  match cur with
  | none => ([], some .attrError)
  | some c =>
    (HookCall.enforceS c ::
      ((getAncestors as dest).map HookCall.enforceS ++ [HookCall.machEnforce]),
      none)

/-- Guard of the `if event is not None:` blocks around the three event
hooks: the hook fires only when an event was passed. -/
def evHook (f : Nat → HookCall) : Option Nat → List HookCall
  | none => []
  | some e => [f e]

/-- The `if origin_state is not None: common_ancestor = _figure_out_ancestry(...)
else: common_ancestor = None` conditional at the top of
`transition_directly_to_state`. -/
def caOf (m : Machine) (dest : Option Nat) : Option Nat :=
  match m.current with
  | some _ => figureOutAncestry m.arena m.current dest
  | none => none

/-- Embedding of `StateMachine.transition_directly_to_state`, including the
recursive call the source makes when the destination is a
`ConditionalJunction` (with `event=None`).  The fuel bounds that recursion
only; it is spent once per junction hop. -/
def transitionDirectlyToState : Nat → Machine → Option Nat → Option Nat → TResult
  | 0, m, _, _ => .err .nonTermination m []
  | fuel + 1, m, dest, ev =>
    let origin := m.current
    let ca := caOf m dest
    let trBefore := evHook HookCall.before ev
    let exitR := exitCurrentState m origin ca
    let m1 := exitR.1
    let trDuring := evHook HookCall.during ev
    let enterR := enterDestinationState m1.arena dest ca
    match enterR.2 with
    | some er => .err er m1 (trBefore ++ exitR.2 ++ trDuring ++ enterR.1)
    | none =>
      let m2 : Machine := { m1 with current := dest }
      let trAfter := evHook HookCall.after ev
      let enfR := enforceAllRelevantStates m2.arena m2.current dest
      let base := trBefore ++ exitR.2 ++ trDuring ++ enterR.1 ++
        [HookCall.commit dest] ++ trAfter ++ enfR.1
      match enfR.2 with
      | some er => .err er m2 base
      | none =>
        match dest with
        | some d =>
          match kindOf m2.arena d with
          | .junction conds dflt =>
            match transitionDirectlyToState fuel m2
                (some (evaluateJunction conds dflt)) none with
            | .ok m3 tr3 => .ok m3 (base ++ tr3)
            | .err e3 m3 tr3 => .err e3 m3 (base ++ tr3)
          | _ => .ok m2 base
        | none => .ok m2 base

/-- Lines 487–491 of the source: if the table entry is a `Guard`, the proxy
destination is `guard.evaluate()`, otherwise the entry itself (a key
mapped to `None`, or — unreachably, since the handling node was found by
table membership — an absent key, yields the no-transition `None`). -/
def resolveProxy : Option (Option TValue) → Option Nat
  | some (some (.toState s)) => some s
  | some (some (.toGuard c s)) => guardEvaluate c s
  | some none => none
  | none => none

/-- Embedding of `StateMachine.process_event`. -/
def processEvent (m : Machine) (e : Nat) : TResult :=
  match m.current with
  | none => .err .attrError m []
  | some o =>
    match getHandlingState m.arena e (m.arena.length + 1) o with
    | none => .err .eventNotHandled m []
    | some h =>
      match resolveProxy (lookupTrans m.arena h e) with
      | none => .ok m []
      | some p =>
        match getFinalDestination m (m.arena.length + 1) (some p) with
        | none => .err .nonTermination m []
        | some fd => transitionDirectlyToState (m.arena.length + 1) m fd (some e)

/-- Embedding of `StateMachine.__init__`: all history slots start empty
(`_init_super_state` sets them to `None`), `_current_state` starts as
`None`, then `transition_directly_to_state(starting_state)` runs. -/
def mkStateMachine (as : List NodeData) (startingState : Nat) : TResult :=
  let m0 : Machine :=
    { arena := as
      current := none
      deepHist := List.replicate as.length none
      shallowHist := List.replicate as.length none }
  transitionDirectlyToState (as.length + 1) m0 (some startingState) none

/-- Repeated processing of the same event, accumulating the trace. -/
def iterProcess (e : Nat) : Nat → Machine → TResult
  | 0, m => .ok m []
  | n + 1, m =>
    match processEvent m e with
    | .ok m1 tr1 =>
      match iterProcess e n m1 with
      | .ok m2 tr2 => .ok m2 (tr1 ++ tr2)
      | .err er m2 tr2 => .err er m2 (tr1 ++ tr2)
    | r => r

/-- Well-formedness of one node: its parent, if any, has a strictly
smaller index (so the graph is an acyclic tree whose chains terminate). -/
def parentLT (as : List NodeData) (i : Nat) : Prop :=
  match parentOf as i with
  | none => True
  | some p => p < i

instance (as : List NodeData) (i : Nat) : Decidable (parentLT as i) := by
  unfold parentLT
  exact match parentOf as i with
  | none => inferInstanceAs (Decidable True)
  | some p => inferInstanceAs (Decidable (p < i))

/-- Well-formedness of the arena: every node's parent has a strictly
smaller index (any finite parent-pointer tree can be numbered this way). -/
def WF (as : List NodeData) : Prop :=
  ∀ i, i < as.length → parentLT as i

instance (as : List NodeData) : Decidable (WF as) :=
  Nat.decidableBallLT as.length (fun i _ => parentLT as i)

/-- Kind test for `isinstance(x, ConditionalJunction)`. -/
def isJunctionKind : NodeKind → Bool
  | .junction _ _ => true
  | _ => false

/-- Kind test for `isinstance(x, SuperState)`. -/
def isCompositeKind : NodeKind → Bool
  | .composite _ _ => true
  | _ => false

/-- A leaf in the sense of the specification's glossary: a node that is
the parent of no node. -/
def isLeaf (as : List NodeData) (i : Nat) : Prop :=
  ∀ j, j < as.length → parentOf as j ≠ some i

instance (as : List NodeData) (i : Nat) : Decidable (isLeaf as i) :=
  Nat.decidableBallLT as.length (fun j _ => parentOf as j ≠ some i)

/-- Specification-side notion (for the claim about the LCA): the
root-to-node path, as the node together with all its ancestors (listed
nearest first; only membership and relative depth matter). -/
def rootPath (as : List NodeData) (i : Nat) : List Nat :=
  i :: getAncestors as (some i)

/-- Specification-side notion: depth of a node = number of proper
ancestors. -/
def depth (as : List NodeData) (i : Nat) : Nat :=
  (getAncestors as (some i)).length

/-- Specification-side notion: the nodes common to the root-to-`A` and
root-to-`B` paths. -/
def commonNodes (as : List NodeData) (A B : Nat) : List Nat :=
  (rootPath as A).filter (fun x => decide (x ∈ rootPath as B))

/-! ### Concrete machines used to instantiate the statements below -/

/-- One isolated state with an empty transition table. -/
def soloArena : List NodeData := [⟨none, .simple, []⟩]

/-- Machine resting on the single state of `soloArena`. -/
def soloMachine : Machine := ⟨soloArena, some 0, [none], [none]⟩

/-- State 0 whose event 0 is guarded by a false condition. -/
def guardArena : List NodeData :=
  [⟨none, .simple, [(0, some (.toGuard false 1))]⟩,
   ⟨none, .simple, []⟩]

/-- Machine resting on state 0 of `guardArena`. -/
def guardMachine : Machine := ⟨guardArena, some 0, [none, none], [none, none]⟩

/-- The junction scenario of the repository's tests: `cooking` (0), whose
event 0 targets junction 3; the junction's second condition is true and
selects `medium` (1); `rare` (2) and the default `cooking` lose. -/
def junctionArena : List NodeData :=
  [⟨none, .simple, [(0, some (.toState 3))]⟩,
   ⟨none, .simple, []⟩,
   ⟨none, .simple, []⟩,
   ⟨none, .junction [(false, 2), (true, 1)] 0, []⟩]

/-- Machine resting on `cooking` in `junctionArena`. -/
def junctionMachine : Machine :=
  ⟨junctionArena, some 0, [none, none, none, none], [none, none, none, none]⟩

/-- A composite (0) in deep-history mode with starting child 1 that has
never been exited, plus a sibling leaf 2 whose event 0 targets the
composite. -/
def emptyHistArena : List NodeData :=
  [⟨none, .composite (some 1) .deepHistory, []⟩,
   ⟨some 0, .simple, []⟩,
   ⟨none, .simple, [(0, some (.toState 0))]⟩]

/-- Machine resting on leaf 2 of `emptyHistArena`, histories empty. -/
def emptyHistMachine : Machine :=
  ⟨emptyHistArena, some 2, [none, none, none], [none, none, none]⟩

/-- A composite (0) with a single child (1). -/
def compositeStartArena : List NodeData :=
  [⟨none, .composite (some 1) .startingState, []⟩,
   ⟨some 0, .simple, []⟩]

/-- Two separate two-level branches: origin leaf 2 under composites 1
under 0, destination leaf 5 under composites 4 under 3; event 0 sends
leaf 2 to leaf 5. -/
def twoBranchArena : List NodeData :=
  [⟨none, .composite (some 1) .startingState, []⟩,
   ⟨some 0, .composite (some 2) .startingState, []⟩,
   ⟨some 1, .simple, [(0, some (.toState 5))]⟩,
   ⟨none, .composite (some 4) .startingState, []⟩,
   ⟨some 3, .composite (some 5) .startingState, []⟩,
   ⟨some 4, .simple, []⟩]

/-- Machine resting on leaf 2 of `twoBranchArena`, histories empty. -/
def twoBranchMachine : Machine :=
  ⟨twoBranchArena, some 2, List.replicate 6 none, List.replicate 6 none⟩

/-- A three-level branch (leaf 2 under composites 1 under 0) plus a
sibling leaf 3 directly under the root 0. -/
def lcaArena : List NodeData :=
  [⟨none, .composite (some 1) .startingState, []⟩,
   ⟨some 0, .composite (some 2) .startingState, []⟩,
   ⟨some 1, .simple, []⟩,
   ⟨some 0, .simple, []⟩]

/-- A deep-history composite 0 containing composite 1 containing leaf 2,
and an outside leaf 3; event 0 sends leaf 2 out to leaf 3, event 1 sends
leaf 3 back to the composite 0. -/
def deepHistArena : List NodeData :=
  [⟨none, .composite (some 1) .deepHistory, []⟩,
   ⟨some 0, .composite (some 2) .startingState, []⟩,
   ⟨some 1, .simple, [(0, some (.toState 3))]⟩,
   ⟨none, .simple, [(1, some (.toState 0))]⟩]

/-- Machine resting on the inner leaf 2 of `deepHistArena`. -/
def deepHistMachine : Machine :=
  ⟨deepHistArena, some 2, [none, none, none, none], [none, none, none, none]⟩

/-! ### Lemmas about ancestor chains on well-formed arenas -/

/-- One unfolding step of the fuelled parent walk. -/
theorem ancestryFrom_succ (as : List NodeData) (f s : Nat) :
    ancestryFrom as (f + 1) s =
      match parentOf as s with
      | none => []
      | some p => p :: ancestryFrom as f p := rfl

/-- On a well-formed arena the fuelled parent walk is fuel-independent once
the fuel exceeds the node index. -/
theorem ancestryFrom_stable (as : List NodeData) (hwf : WF as) :
    ∀ s, s < as.length → ∀ f g, s < f → s < g →
      ancestryFrom as f s = ancestryFrom as g s := by
  intro s
  induction s using Nat.strong_induction_on with
  | _ s ih =>
    intro hs f g hf hg
    obtain ⟨f, rfl⟩ : ∃ f', f = f' + 1 := ⟨f - 1, by omega⟩
    obtain ⟨g, rfl⟩ : ∃ g', g = g' + 1 := ⟨g - 1, by omega⟩
    cases hp : parentOf as s with
    | none => simp only [ancestryFrom_succ, hp]
    | some p =>
      have hps : p < s := by
        have h := hwf s hs
        simpa [parentLT, hp] using h
      have hplen : p < as.length := Nat.lt_trans hps hs
      simp only [ancestryFrom_succ, hp]
      rw [ih p hps hplen f g (by omega) (by omega)]

/-- A node with no parent has no ancestors. -/
theorem getAncestors_eq_nil (as : List NodeData) (s : Nat)
    (hp : parentOf as s = none) : getAncestors as (some s) = [] := by
  show ancestryFrom as (as.length + 1) s = []
  simp only [ancestryFrom_succ, hp]

/-- Unfolding of the ancestor chain on a well-formed arena. -/
theorem getAncestors_cons (as : List NodeData) (hwf : WF as) (s p : Nat)
    (hs : s < as.length) (hp : parentOf as s = some p) :
    getAncestors as (some s) = p :: getAncestors as (some p) := by
  have hps : p < s := by
    have h := hwf s hs
    simpa [parentLT, hp] using h
  have hplen : p < as.length := Nat.lt_trans hps hs
  show ancestryFrom as (as.length + 1) s = p :: getAncestors as (some p)
  simp only [ancestryFrom_succ, hp]
  rw [ancestryFrom_stable as hwf p hplen as.length (as.length + 1)
    (by omega) (by omega)]
  rfl

/-- Every ancestor of `s` has a strictly smaller index. -/
theorem mem_getAncestors_lt (as : List NodeData) (hwf : WF as) :
    ∀ s, s < as.length → ∀ x ∈ getAncestors as (some s), x < s := by
  intro s
  induction s using Nat.strong_induction_on with
  | _ s ih =>
    intro hs x hx
    cases hp : parentOf as s with
    | none =>
      rw [getAncestors_eq_nil as s hp] at hx
      simp at hx
    | some p =>
      have hps : p < s := by
        have h := hwf s hs
        simpa [parentLT, hp] using h
      have hplen : p < as.length := Nat.lt_trans hps hs
      rw [getAncestors_cons as hwf s p hs hp] at hx
      rcases List.mem_cons.mp hx with rfl | hx'
      · exact hps
      · exact Nat.lt_trans (ih p hps hplen x hx') hps

/-- The ancestor chain is strictly decreasing in node index. -/
theorem getAncestors_pairwise (as : List NodeData) (hwf : WF as) :
    ∀ s, s < as.length →
      (getAncestors as (some s)).Pairwise (fun a b => b < a) := by
  intro s
  induction s using Nat.strong_induction_on with
  | _ s ih =>
    intro hs
    cases hp : parentOf as s with
    | none =>
      rw [getAncestors_eq_nil as s hp]
      exact List.Pairwise.nil
    | some p =>
      have hps : p < s := by
        have h := hwf s hs
        simpa [parentLT, hp] using h
      have hplen : p < as.length := Nat.lt_trans hps hs
      rw [getAncestors_cons as hwf s p hs hp]
      exact List.Pairwise.cons
        (fun x hx => mem_getAncestors_lt as hwf p hplen x hx)
        (ih p hps hplen)

/-- The ancestor chain has no duplicates. -/
theorem getAncestors_nodup (as : List NodeData) (hwf : WF as)
    (s : Nat) (hs : s < as.length) : (getAncestors as (some s)).Nodup :=
  List.Pairwise.imp (fun h => Nat.ne_of_gt h) (getAncestors_pairwise as hwf s hs)

/-- Every ancestor of `s` is somebody's parent. -/
theorem mem_getAncestors_parent (as : List NodeData) (hwf : WF as) :
    ∀ s, s < as.length → ∀ x ∈ getAncestors as (some s),
      ∃ c, c < as.length ∧ parentOf as c = some x := by
  intro s
  induction s using Nat.strong_induction_on with
  | _ s ih =>
    intro hs x hx
    cases hp : parentOf as s with
    | none =>
      rw [getAncestors_eq_nil as s hp] at hx
      simp at hx
    | some p =>
      have hps : p < s := by
        have h := hwf s hs
        simpa [parentLT, hp] using h
      have hplen : p < as.length := Nat.lt_trans hps hs
      rw [getAncestors_cons as hwf s p hs hp] at hx
      rcases List.mem_cons.mp hx with rfl | hx'
      · exact ⟨s, hs, hp⟩
      · exact ih p hps hplen x hx'

/-- The ancestors of the `i`-th ancestor of `s` are the remainder of the
chain of `s`: ancestor chains are suffix-closed. -/
theorem getAncestors_drop (as : List NodeData) (hwf : WF as) :
    ∀ s, s < as.length → ∀ i, (hi : i < (getAncestors as (some s)).length) →
      getAncestors as (some ((getAncestors as (some s)).get ⟨i, hi⟩)) =
        (getAncestors as (some s)).drop (i + 1) := by
  intro s
  induction s using Nat.strong_induction_on with
  | _ s ih =>
    intro hs i hi
    cases hp : parentOf as s with
    | none =>
      rw [getAncestors_eq_nil as s hp] at hi
      simp at hi
    | some p =>
      have hps : p < s := by
        have h := hwf s hs
        simpa [parentLT, hp] using h
      have hplen : p < as.length := Nat.lt_trans hps hs
      have hcons := getAncestors_cons as hwf s p hs hp
      cases i with
      | zero =>
        have h0 : (getAncestors as (some s)).get ⟨0, hi⟩ = p := by
          simp [hcons]
        rw [h0, hcons]
        rfl
      | succ i =>
        have hi' : i < (getAncestors as (some p)).length := by
          have := hi
          rw [hcons] at this
          simpa using Nat.lt_of_succ_lt_succ this
        have hget : (getAncestors as (some s)).get ⟨i + 1, hi⟩ =
            (getAncestors as (some p)).get ⟨i, hi'⟩ := by
          have : getAncestors as (some s) = p :: getAncestors as (some p) := hcons
          rw [List.get_of_eq this]
          rfl
        rw [hget, ih p hps hplen i hi', hcons]
        rfl

/-- A node strictly inside an ancestor chain is strictly shallower than
the chain's start. -/
theorem depth_lt_of_mem_ancestors (as : List NodeData) (hwf : WF as)
    (x : Nat) (hx : x < as.length) (y : Nat)
    (hy : y ∈ getAncestors as (some x)) : depth as y < depth as x := by
  obtain ⟨⟨i, hi⟩, hget⟩ := List.mem_iff_get.mp hy
  have hdrop := getAncestors_drop as hwf x hx i hi
  rw [hget] at hdrop
  unfold depth
  rw [hdrop, List.length_drop]
  omega

/-! ### Lemmas about the exit phase and its history writes -/

/-- Unfolding of the exit loop on a cons. -/
theorem puoa_cons (o : Option Nat) (m : Machine) (s : Nat) (rest : List Nat)
    (c : Option Nat) :
    processUncommonOriginAncestors o m (s :: rest) c =
      ((processUncommonOriginAncestors o
          { m with deepHist := m.deepHist.set s o
                   shallowHist := m.shallowHist.set s c } rest (some s)).1,
        HookCall.exitS s ::
          (processUncommonOriginAncestors o
            { m with deepHist := m.deepHist.set s o
                     shallowHist := m.shallowHist.set s c } rest (some s)).2) := rfl

/-- The exit loop does not touch the arena. -/
theorem puoa_arena (o : Option Nat) :
    ∀ (l : List Nat) (m : Machine) (c : Option Nat),
      (processUncommonOriginAncestors o m l c).1.arena = m.arena := by
  intro l
  induction l with
  | nil => intro m c; rfl
  | cons s rest ih => intro m c; rw [puoa_cons]; exact ih _ _

/-- The exit loop does not touch the current state. -/
theorem puoa_current (o : Option Nat) :
    ∀ (l : List Nat) (m : Machine) (c : Option Nat),
      (processUncommonOriginAncestors o m l c).1.current = m.current := by
  intro l
  induction l with
  | nil => intro m c; rfl
  | cons s rest ih => intro m c; rw [puoa_cons]; exact ih _ _

/-- The exit loop preserves the length of the deep-history store. -/
theorem puoa_deepHist_length (o : Option Nat) :
    ∀ (l : List Nat) (m : Machine) (c : Option Nat),
      (processUncommonOriginAncestors o m l c).1.deepHist.length =
        m.deepHist.length := by
  intro l
  induction l with
  | nil => intro m c; rfl
  | cons s rest ih =>
    intro m c
    rw [puoa_cons]
    rw [ih]
    exact List.length_set ..

/-- The exit loop preserves the length of the shallow-history store. -/
theorem puoa_shallowHist_length (o : Option Nat) :
    ∀ (l : List Nat) (m : Machine) (c : Option Nat),
      (processUncommonOriginAncestors o m l c).1.shallowHist.length =
        m.shallowHist.length := by
  intro l
  induction l with
  | nil => intro m c; rfl
  | cons s rest ih =>
    intro m c
    rw [puoa_cons]
    rw [ih]
    exact List.length_set ..

/-- The exit loop runs exactly the `on_exit` hooks of the listed
ancestors, in order. -/
theorem puoa_trace (o : Option Nat) :
    ∀ (l : List Nat) (m : Machine) (c : Option Nat),
      (processUncommonOriginAncestors o m l c).2 = l.map HookCall.exitS := by
  intro l
  induction l with
  | nil => intro m c; rfl
  | cons s rest ih => intro m c; rw [puoa_cons]; simp [ih]

/-- Reading a slot just written. -/
theorem histGet_set_self (h : List (Option Nat)) (s : Nat) (v : Option Nat)
    (hs : s < h.length) : histGet (h.set s v) s = v := by
  unfold histGet
  rw [List.get?_set_eq, List.get?_eq_get hs]
  rfl

/-- Reading another slot after a write. -/
theorem histGet_set_ne (h : List (Option Nat)) (s x : Nat) (v : Option Nat)
    (hne : s ≠ x) : histGet (h.set s v) x = histGet h x := by
  unfold histGet
  rw [List.get?_set_ne _ _ hne]

/-- Slots of nodes not in the exited list keep their deep history. -/
theorem puoa_deepHist_not_mem (o : Option Nat) :
    ∀ (l : List Nat) (m : Machine) (c : Option Nat) (x : Nat), x ∉ l →
      histGet (processUncommonOriginAncestors o m l c).1.deepHist x =
        histGet m.deepHist x := by
  intro l
  induction l with
  | nil => intro m c x _; rfl
  | cons s rest ih =>
    intro m c x hx
    rw [puoa_cons]
    rw [ih _ _ x (fun hm => hx (List.mem_cons_of_mem _ hm))]
    exact histGet_set_ne _ _ _ _ (fun he => hx (he ▸ List.mem_cons_self _ _))

/-- Slots of nodes not in the exited list keep their shallow history. -/
theorem puoa_shallowHist_not_mem (o : Option Nat) :
    ∀ (l : List Nat) (m : Machine) (c : Option Nat) (x : Nat), x ∉ l →
      histGet (processUncommonOriginAncestors o m l c).1.shallowHist x =
        histGet m.shallowHist x := by
  intro l
  induction l with
  | nil => intro m c x _; rfl
  | cons s rest ih =>
    intro m c x hx
    rw [puoa_cons]
    rw [ih _ _ x (fun hm => hx (List.mem_cons_of_mem _ hm))]
    exact histGet_set_ne _ _ _ _ (fun he => hx (he ▸ List.mem_cons_self _ _))

/-- The history writes of the exit loop: every listed ancestor gets deep
history `o` (the origin as passed) and shallow history the child it was
exited through (`c` for the first, its predecessor for the rest). -/
theorem puoa_hist_spec (o : Option Nat) :
    ∀ (l : List Nat) (m : Machine) (c : Option Nat),
      l.Nodup → (∀ x ∈ l, x < m.deepHist.length) →
      (∀ x ∈ l, x < m.shallowHist.length) →
      ∀ i, i < l.length →
        histGet (processUncommonOriginAncestors o m l c).1.deepHist
          (l.getD i 0) = o ∧
        histGet (processUncommonOriginAncestors o m l c).1.shallowHist
          (l.getD i 0) = (c :: l.map some).getD i none := by
  intro l
  induction l with
  | nil => intro m c _ _ _ i hi; simp at hi
  | cons s rest ih =>
    intro m c hnd hdb hsb i hi
    have hsrest : s ∉ rest := (List.nodup_cons.mp hnd).1
    rw [puoa_cons]
    cases i with
    | zero =>
      rw [List.getD_cons_zero]
      constructor
      · rw [puoa_deepHist_not_mem o rest _ (some s) s hsrest]
        exact histGet_set_self _ _ _ (hdb s (List.mem_cons_self _ _))
      · rw [puoa_shallowHist_not_mem o rest _ (some s) s hsrest]
        rw [histGet_set_self _ _ _ (hsb s (List.mem_cons_self _ _))]
        rfl
    | succ i =>
      rw [List.getD_cons_succ]
      have hih := ih
        { m with deepHist := m.deepHist.set s o
                 shallowHist := m.shallowHist.set s c } (some s)
        (List.nodup_cons.mp hnd).2
        (fun x hx => by
          rw [List.length_set]
          exact hdb x (List.mem_cons_of_mem _ hx))
        (fun x hx => by
          rw [List.length_set]
          exact hsb x (List.mem_cons_of_mem _ hx))
        i (by simpa using Nat.lt_of_succ_lt_succ hi)
      refine ⟨hih.1, ?_⟩
      rw [hih.2]
      rfl

/-! ### Lemmas about entry, enforce and the whole transition -/

/-- Taking the uncommon prefix of an empty ancestry gives nothing. -/
theorem uncommonAncestors_nil (ca : Option Nat) :
    uncommonAncestors [] ca = [] := by
  cases ca <;> simp [uncommonAncestors]

/-- With no origin, the common ancestor defaults to `None` either way. -/
theorem caOf_eq (m : Machine) (dest : Option Nat) :
    caOf m dest = figureOutAncestry m.arena m.current dest := by
  unfold caOf
  cases hc : m.current with
  | some o => rfl
  | none => simp [figureOutAncestry, getAncestors, getCommonAncestor, hc]

/-- The machine part of `_exit_current_state` is the exit loop's machine. -/
theorem exitCS_machine (m : Machine) (origin ca : Option Nat) :
    (exitCurrentState m origin ca).1 =
      (processUncommonOriginAncestors origin m
        (uncommonAncestors (getAncestors m.arena origin) ca) origin).1 := rfl

/-- Exiting does not touch the arena. -/
theorem exitCS_arena (m : Machine) (origin ca : Option Nat) :
    (exitCurrentState m origin ca).1.arena = m.arena := by
  rw [exitCS_machine]
  exact puoa_arena ..

/-- Exiting does not touch the current state. -/
theorem exitCS_current (m : Machine) (origin ca : Option Nat) :
    (exitCurrentState m origin ca).1.current = m.current := by
  rw [exitCS_machine]
  exact puoa_current ..

/-- Exiting preserves the deep-history store's length. -/
theorem exitCS_deepHist_length (m : Machine) (origin ca : Option Nat) :
    (exitCurrentState m origin ca).1.deepHist.length = m.deepHist.length := by
  rw [exitCS_machine]
  exact puoa_deepHist_length ..

/-- Exiting preserves the shallow-history store's length. -/
theorem exitCS_shallowHist_length (m : Machine) (origin ca : Option Nat) :
    (exitCurrentState m origin ca).1.shallowHist.length =
      m.shallowHist.length := by
  rw [exitCS_machine]
  exact puoa_shallowHist_length ..

/-- Hook trace of the exit phase with an origin state: the origin's
`on_exit` and then the uncommon ancestors' `on_exit`, nearest first. -/
theorem exitCS_trace_some (m : Machine) (o : Nat) (ca : Option Nat) :
    (exitCurrentState m (some o) ca).2 =
      HookCall.exitS o ::
        (uncommonAncestors (getAncestors m.arena (some o)) ca).map
          HookCall.exitS := by
  unfold exitCurrentState
  simp [puoa_trace]

/-- Hook trace of the exit phase with no origin (machine construction):
nothing runs. -/
theorem exitCS_trace_none (m : Machine) (ca : Option Nat) :
    (exitCurrentState m none ca).2 = [] := by
  unfold exitCurrentState
  simp [puoa_trace, getAncestors, uncommonAncestors_nil]

/-- With no origin the exit phase does not change the machine at all. -/
theorem exitCS_machine_none (m : Machine) (ca : Option Nat) :
    (exitCurrentState m none ca).1 = m := by
  rw [exitCS_machine]
  simp only [getAncestors, uncommonAncestors_nil]
  rfl

/-- Entering a real destination: uncommon ancestors outermost first, then
the destination, and no error. -/
theorem enterDS_some (as : List NodeData) (d : Nat) (ca : Option Nat) :
    enterDestinationState as (some d) ca =
      ((uncommonAncestors (getAncestors as (some d)) ca).reverse.map
          HookCall.entryS ++ [HookCall.entryS d], none) := rfl

/-- Entering destination `None` raises after entering the (empty) list of
its ancestors. -/
theorem enterDS_none (as : List NodeData) (ca : Option Nat) :
    enterDestinationState as none ca = ([], some Err.attrError) := by
  unfold enterDestinationState
  simp [getAncestors, uncommonAncestors_nil]

/-- The entry phase can only raise the `None`-dereference error. -/
theorem enterDS_err (as : List NodeData) (dest ca : Option Nat) (er : Err)
    (h : (enterDestinationState as dest ca).2 = some er) :
    er = .attrError ∧ dest = none := by
  cases dest with
  | none =>
    rw [enterDS_none] at h
    exact ⟨(Option.some_injective _ h).symm, rfl⟩
  | some d => rw [enterDS_some] at h; simp at h

/-- Enforcing with a committed current state: current, destination
ancestors nearest first, then the machine hook, and no error. -/
theorem enforceARS_some (as : List NodeData) (c : Nat) (dest : Option Nat) :
    enforceAllRelevantStates as (some c) dest =
      (HookCall.enforceS c ::
        ((getAncestors as dest).map HookCall.enforceS ++ [HookCall.machEnforce]),
        none) := rfl

/-- The enforce phase can only raise the `None`-dereference error. -/
theorem enforceARS_err (as : List NodeData) (cur dest : Option Nat) (er : Err)
    (h : (enforceAllRelevantStates as cur dest).2 = some er) :
    er = .attrError ∧ cur = none := by
  cases cur with
  | none => exact ⟨(Option.some_injective _ h.symm), rfl⟩
  | some c => rw [enforceARS_some] at h; simp at h

/-- Full characterisation of `transition_directly_to_state` when the
destination is a real, non-junction node: it succeeds, commits the
destination, applies exactly the exit-phase history writes, and runs the
hooks in the fixed order of the source. -/
theorem tdts_nonjunction (fuel : Nat) (m : Machine) (d : Nat) (ev : Option Nat)
    (hk : isJunctionKind (kindOf m.arena d) = false) :
    transitionDirectlyToState (fuel + 1) m (some d) ev =
      .ok { (exitCurrentState m m.current (caOf m (some d))).1 with
              current := some d }
        (evHook HookCall.before ev ++
          (exitCurrentState m m.current (caOf m (some d))).2 ++
          evHook HookCall.during ev ++
          ((uncommonAncestors (getAncestors m.arena (some d))
              (caOf m (some d))).reverse.map HookCall.entryS ++
            [HookCall.entryS d]) ++
          [HookCall.commit (some d)] ++
          evHook HookCall.after ev ++
          (HookCall.enforceS d ::
            ((getAncestors m.arena (some d)).map HookCall.enforceS ++
              [HookCall.machEnforce]))) := by
  have harena : (exitCurrentState m m.current (caOf m (some d))).1.arena =
      m.arena := exitCS_arena ..
  simp only [transitionDirectlyToState, harena, enterDS_some, enforceARS_some]
  cases hkind : kindOf m.arena d with
  | junction conds dflt => rw [hkind] at hk; simp [isJunctionKind] at hk
  | simple => rfl
  | composite st pe => rfl

/-! ### Lemmas about destination descent and handler search -/

/-- One unfolding step of the composite descent. -/
theorem gfd_succ_some (m : Machine) (f d : Nat) :
    getFinalDestination m (f + 1) (some d) =
      match kindOf m.arena d with
      | .composite st pe =>
        getFinalDestination m f
          (match pe with
           | .startingState => st
           | .deepHistory => histGet m.deepHist d
           | .shallowHistory => histGet m.shallowHist d)
      | _ => some (some d) := rfl

/-- When the descent loop terminates on a real node, that node is not a
`SuperState` (the loop only stops on non-composites). -/
theorem gfd_not_composite (m : Machine) :
    ∀ f p d, getFinalDestination m f p = some (some d) →
      isCompositeKind (kindOf m.arena d) = false := by
  intro f
  induction f with
  | zero => intro p d h; simp [getFinalDestination] at h
  | succ f ih =>
    intro p d h
    cases p with
    | none => simp [getFinalDestination] at h
    | some q =>
      rw [gfd_succ_some] at h
      cases hk : kindOf m.arena q with
      | composite st pe =>
        rw [hk] at h
        exact ih _ _ h
      | simple =>
        rw [hk] at h
        have : q = d := by simpa using h
        rw [← this, hk]
        rfl
      | junction conds dflt =>
        rw [hk] at h
        have : q = d := by simpa using h
        rw [← this, hk]
        rfl

/-- One unfolding step of the handler search. -/
theorem ghs_succ (as : List NodeData) (e f s : Nat) :
    getHandlingState as e (f + 1) s =
      if (lookupTrans as s e).isSome then some s
      else
        match parentOf as s with
        | some p => getHandlingState as e f p
        | none => none := rfl

/-- The handler search fails exactly when no node on the chain from the
origin (inclusive) to the root has the event in its table. -/
theorem ghs_none_iff (as : List NodeData) (hwf : WF as) (e : Nat) :
    ∀ s, s < as.length → ∀ f, s < f →
      (getHandlingState as e f s = none ↔
        ∀ n ∈ s :: getAncestors as (some s), lookupTrans as n e = none) := by
  intro s
  induction s using Nat.strong_induction_on with
  | _ s ih =>
    intro hs f hf
    obtain ⟨f, rfl⟩ : ∃ f', f = f' + 1 := ⟨f - 1, by omega⟩
    cases hl : lookupTrans as s e with
    | some v =>
      rw [ghs_succ]
      rw [hl]
      simp only [Option.isSome_some, if_true]
      constructor
      · intro h; exact absurd h (by simp)
      · intro h
        have hc := h s (List.mem_cons_self _ _)
        rw [hl] at hc
        exact absurd hc (by simp)
    | none =>
      rw [ghs_succ, hl]
      simp only [Option.isSome_none, Bool.false_eq_true, if_false]
      cases hp : parentOf as s with
      | none =>
        rw [getAncestors_eq_nil as s hp]
        constructor
        · intro _ n hn
          rcases List.mem_cons.mp hn with rfl | hn'
          · exact hl
          · simp at hn'
        · intro _; rfl
      | some p =>
        have hps : p < s := by
          have h := hwf s hs
          simpa [parentLT, hp] using h
        have hplen : p < as.length := Nat.lt_trans hps hs
        rw [getAncestors_cons as hwf s p hs hp]
        rw [ih p hps hplen f (by omega)]
        constructor
        · intro h n hn
          rcases List.mem_cons.mp hn with rfl | hn'
          · exact hl
          · exact h n hn'
        · intro h n hn
          exact h n (List.mem_cons_of_mem _ hn)

/-- A direct transition never raises the event-not-handled error: that
error is produced by the handler search only. -/
theorem tdts_err_ne_enh : ∀ (fuel : Nat) (m : Machine) (dest ev : Option Nat)
    (m' : Machine) (tr : List HookCall),
    transitionDirectlyToState fuel m dest ev ≠ .err .eventNotHandled m' tr := by
  intro fuel
  induction fuel with
  | zero =>
    intro m dest ev m' tr h
    cases h
  | succ fuel ih =>
    intro m dest ev m' tr h
    simp only [transitionDirectlyToState] at h
    split at h
    next er heq =>
      obtain ⟨rfl, _⟩ := enterDS_err _ _ _ _ heq
      exact Err.noConfusion (TResult.err.inj h).1
    next heq =>
      split at h
      next er heq2 =>
        obtain ⟨rfl, _⟩ := enforceARS_err _ _ _ _ heq2
        exact Err.noConfusion (TResult.err.inj h).1
      next heq2 =>
        split at h
        next d =>
          split at h
          next conds dflt hkind =>
            split at h
            next m3 tr3 hrec => exact TResult.noConfusion h
            next e3 m3 tr3 hrec =>
              have he3 : e3 = Err.eventNotHandled := (TResult.err.inj h).1
              rw [he3] at hrec
              exact ih _ _ _ _ _ hrec
          next hkind => exact TResult.noConfusion h
        next => exact TResult.noConfusion h

/-! ### Lemmas for the common-ancestor computation -/

/-- An element sitting at or beyond position `i` belongs to `drop i`. -/
theorem getElem_mem_drop {α : Type} (l : List α) (i j : Nat)
    (hj : j < l.length) (hij : i ≤ j) : l.get ⟨j, hj⟩ ∈ l.drop i := by
  rw [List.mem_iff_getElem]
  have hlen : j - i < (l.drop i).length := by
    rw [List.length_drop]
    omega
  refine ⟨j - i, hlen, ?_⟩
  rw [List.getElem_drop, List.get_eq_getElem]
  congr 1
  show i + (j - i) = j
  omega

/-- Scanning a list for its own members returns its head. -/
theorem gca_self (l : List Nat) : getCommonAncestor l l = l.head? := by
  cases l with
  | nil => rfl
  | cons a l =>
    unfold getCommonAncestor
    rw [List.find?_cons]
    simp

/-- The head of the ancestor chain is the parent. -/
theorem getAncestors_head (as : List NodeData) (hwf : WF as) (s : Nat)
    (hs : s < as.length) :
    (getAncestors as (some s)).head? = parentOf as s := by
  cases hp : parentOf as s with
  | none => rw [getAncestors_eq_nil as s hp]; rfl
  | some p => rw [getAncestors_cons as hwf s p hs hp]; rfl

/-- A leaf appears in no ancestor chain. -/
theorem leaf_not_mem_ancestors (as : List NodeData) (hwf : WF as)
    (x : Nat) (hlx : isLeaf as x) (s : Nat) (hs : s < as.length) :
    x ∉ getAncestors as (some s) := by
  intro hx
  obtain ⟨c, hc, hpc⟩ := mem_getAncestors_parent as hwf s hs x hx
  exact hlx c hc hpc

/-- For distinct leaves, the nodes common to both root paths are exactly
the common proper ancestors. -/
theorem commonNodes_eq_filter (as : List NodeData) (hwf : WF as)
    (A B : Nat) (hA : A < as.length) (hB : B < as.length)
    (hlA : isLeaf as A) (hlB : isLeaf as B) (hne : A ≠ B) :
    commonNodes as A B =
      (getAncestors as (some A)).filter
        (fun x => decide (x ∈ getAncestors as (some B))) := by
  unfold commonNodes rootPath
  rw [List.filter_cons]
  have hAnotB : (decide (A ∈ B :: getAncestors as (some B)) = true) ↔ False := by
    simp only [decide_eq_true_eq, List.mem_cons]
    constructor
    · rintro (rfl | hmem)
      · exact hne rfl
      · exact leaf_not_mem_ancestors as hwf A hlA B hB hmem
    · exact False.elim
  rw [if_neg (by simpa using hAnotB)]
  apply List.filter_congr
  intro x hx
  simp only [decide_eq_decide, List.mem_cons]
  constructor
  · rintro (h | hmem)
    · rw [h] at hx
      exact absurd hx (leaf_not_mem_ancestors as hwf B hlB A hA)
    · exact hmem
  · exact Or.inr

/-! ### History writes of the whole exit phase -/

/-- Elements of the uncommon slice are ancestors. -/
theorem mem_uncommonAncestors (ancestry : List Nat) (ca : Option Nat)
    (x : Nat) (hx : x ∈ uncommonAncestors ancestry ca) : x ∈ ancestry := by
  cases ca with
  | none => exact hx
  | some c => exact List.mem_of_mem_take hx

/-- The uncommon slice of a duplicate-free ancestry is duplicate-free. -/
theorem uncommonAncestors_nodup (ancestry : List Nat) (ca : Option Nat)
    (hnd : ancestry.Nodup) : (uncommonAncestors ancestry ca).Nodup := by
  cases ca with
  | none => exact hnd
  | some c => exact List.Nodup.sublist (List.take_sublist _ _) hnd

/-- History writes performed by `_exit_current_state` from origin `o`:
position `i` of the uncommon-ancestor list gets deep history `o` and
shallow history the element before it (the origin itself for position 0),
i.e. the direct child it was exited through. -/
theorem exitCS_hist_spec (m : Machine) (o : Nat) (ca : Option Nat)
    (hwf : WF m.arena) (ho : o < m.arena.length)
    (hdl : m.deepHist.length = m.arena.length)
    (hsl : m.shallowHist.length = m.arena.length) :
    ∀ i, i < (uncommonAncestors (getAncestors m.arena (some o)) ca).length →
      histGet (exitCurrentState m (some o) ca).1.deepHist
          ((uncommonAncestors (getAncestors m.arena (some o)) ca).getD i 0) =
        some o ∧
      histGet (exitCurrentState m (some o) ca).1.shallowHist
          ((uncommonAncestors (getAncestors m.arena (some o)) ca).getD i 0) =
        (some o ::
          (uncommonAncestors (getAncestors m.arena (some o)) ca).map
            some).getD i none := by
  intro i hi
  have hnd : (uncommonAncestors (getAncestors m.arena (some o)) ca).Nodup :=
    uncommonAncestors_nodup _ _ (getAncestors_nodup m.arena hwf o ho)
  have hdb : ∀ x ∈ uncommonAncestors (getAncestors m.arena (some o)) ca,
      x < m.deepHist.length := by
    intro x hx
    have h1 := mem_getAncestors_lt m.arena hwf o ho x
      (mem_uncommonAncestors _ _ _ hx)
    omega
  have hsb : ∀ x ∈ uncommonAncestors (getAncestors m.arena (some o)) ca,
      x < m.shallowHist.length := by
    intro x hx
    have h1 := mem_getAncestors_lt m.arena hwf o ho x
      (mem_uncommonAncestors _ _ _ hx)
    omega
  rw [exitCS_machine]
  exact puoa_hist_spec (some o) _ m (some o) hnd hdb hsb i hi

/-- The deep-history slot of any ancestor exited by `_exit_current_state`
ends up holding the origin leaf. -/
theorem exitCS_deepHist_mem (m : Machine) (o : Nat) (ca : Option Nat)
    (hwf : WF m.arena) (ho : o < m.arena.length)
    (hdl : m.deepHist.length = m.arena.length)
    (hsl : m.shallowHist.length = m.arena.length)
    (a : Nat) (ha : a ∈ uncommonAncestors (getAncestors m.arena (some o)) ca) :
    histGet (exitCurrentState m (some o) ca).1.deepHist a = some o := by
  obtain ⟨⟨i, hi⟩, hgi⟩ := List.mem_iff_get.mp ha
  have hgetD : (uncommonAncestors (getAncestors m.arena (some o)) ca).getD i 0 =
      a := by
    rw [List.getD_eq_get?, List.get?_eq_get hi, hgi]
    rfl
  have h := (exitCS_hist_spec m o ca hwf ho hdl hsl i hi).1
  rw [hgetD] at h
  exact h

/-! ### The verified claims -/

/-- C1: the claim says a `ConditionalJunction` destination is resolved by
`evaluate()` within the same single resolution pass, its hooks firing as
control passes through, and the engine never performs a second full
transition to leave the junction.  The code does the opposite:
`transition_directly_to_state` commits the junction, runs a full
before/exit/during/entry/commit/after/enforce cycle to it, and then
recursively performs a second full transition (with its own exit, entry,
commit and a second complete enforce cycle ending in a second
machine-level enforce) to `evaluate()`'s result.  Evaluating the embedded
code on the repository's own junction test scenario exhibits the two
commits and the two machine-enforce invocations. -/
theorem c1_junction_double_transition :
    processEvent junctionMachine 0 =
      .ok ⟨junctionArena, some 1, [none, none, none, none],
          [none, none, none, none]⟩
        [.before 0, .exitS 0, .during 0, .entryS 3, .commit (some 3),
         .after 0, .enforceS 3, .machEnforce, .exitS 3, .entryS 1,
         .commit (some 1), .enforceS 1, .machEnforce] := by rfl

/-- C2 (counterexample): the claim asserts that already after
`StateMachine` construction the current state is never an unresolved
`CompositeState`.  But `__init__` calls `transition_directly_to_state`
without `_get_final_destination`, so constructing a machine on a
composite with a child commits that composite itself: here node 0 is a
`SuperState` with child 1, and after construction `current` is node 0. -/
theorem c2_counterexample :
    mkStateMachine compositeStartArena 0 =
      .ok ⟨compositeStartArena, some 0, [none, none], [none, none]⟩
        [.entryS 0, .commit (some 0), .enforceS 0, .machEnforce] ∧
    isCompositeKind (kindOf compositeStartArena 0) = true ∧
    parentOf compositeStartArena 1 = some 0 := ⟨rfl, rfl, rfl⟩

/-- C2 (amended): after a completed `process_event` whose table target
resolved (through `_get_final_destination`) to a non-junction node `d`,
the machine's current state is exactly `d`, and `d` is neither a
`SuperState` nor a `ConditionalJunction`; the original claim's guarantee
fails only for the initial node bound by the constructor (committed
without descent, counterexample above) and for nodes selected by a
junction's `evaluate()` (likewise committed without descent). -/
theorem c2_amended_current_resolved (m : Machine) (e o h p d : Nat)
    (hcur : m.current = some o)
    (hh : getHandlingState m.arena e (m.arena.length + 1) o = some h)
    (hpx : resolveProxy (lookupTrans m.arena h e) = some p)
    (hfd : getFinalDestination m (m.arena.length + 1) (some p) =
      some (some d))
    (hk : isJunctionKind (kindOf m.arena d) = false) :
    ∃ m' tr, processEvent m e = .ok m' tr ∧ m'.current = some d ∧
      isCompositeKind (kindOf m.arena d) = false := by
  simp only [processEvent, hcur, hh, hpx, hfd]
  refine ⟨_, _, tdts_nonjunction m.arena.length m d (some e) hk, rfl, ?_⟩
  exact gfd_not_composite m _ _ _ hfd

/-- C2 (witness): on `twoBranchArena`, event 0 from leaf 2 resolves to
leaf 5, and the amended statement applies. -/
theorem c2_witness :
    ∃ m' tr, processEvent twoBranchMachine 0 = .ok m' tr ∧
      m'.current = some 5 ∧
      isCompositeKind (kindOf twoBranchMachine.arena 5) = false :=
  c2_amended_current_resolved twoBranchMachine 0 2 2 5 5
    (by rfl) (by rfl) (by rfl) (by rfl) (by rfl)

/-- C3: the claim says a composite in deep- (or shallow-) history mode
whose history slot is still empty falls back to its starting child.  The
code has no fallback: `_get_final_destination` loads the empty slot
(`None`), the `while` loop exits, and the transition then crashes with an
AttributeError when it calls `on_entry` on `None` — after the before,
exit and during hooks have already run.  Here composite 0 (deep history,
never exited, starting child 1) is targeted by event 0 from leaf 2; the
claimed behavior would end with `current = 1`, the code raises instead. -/
theorem c3_empty_history_crash :
    processEvent emptyHistMachine 0 =
      .err .attrError emptyHistMachine [.before 0, .exitS 2, .during 0] := by
  rfl

/-- C4: a non-internal transition that exits ancestors `[X, Y]` (nearest
first) and enters ancestors `[Z, W]` (outermost first) before the leaf
`d` runs exactly, in order: `event.before`, current-leaf exit, `X.exit`,
`Y.exit`, `event.during`, `Z.entry`, `W.entry`, leaf entry, the commit of
the new current state (after the entry phase, before `event.after`),
`event.after`, leaf enforce, enforce on every destination ancestor
nearest-to-farthest (`ds` is the full destination ancestry), and the
machine-level enforce. -/
theorem c4_hook_order (m : Machine) (o d e X Y Z W : Nat) (ds : List Nat)
    (fuel : Nat)
    (hcur : m.current = some o)
    (hk : isJunctionKind (kindOf m.arena d) = false)
    (hexits : uncommonAncestors (getAncestors m.arena (some o))
        (caOf m (some d)) = [X, Y])
    (henters : (uncommonAncestors (getAncestors m.arena (some d))
        (caOf m (some d))).reverse = [Z, W])
    (hds : getAncestors m.arena (some d) = ds) :
    ∃ m', transitionDirectlyToState (fuel + 1) m (some d) (some e) =
        .ok m' ([HookCall.before e, .exitS o, .exitS X, .exitS Y, .during e,
          .entryS Z, .entryS W, .entryS d, .commit (some d), .after e,
          .enforceS d] ++ ds.map HookCall.enforceS ++ [.machEnforce]) ∧
      m'.current = some d := by
  have htr : (exitCurrentState m m.current (caOf m (some d))).2 =
      [HookCall.exitS o, .exitS X, .exitS Y] := by
    rw [hcur, exitCS_trace_some, hexits]
    rfl
  refine ⟨{ (exitCurrentState m m.current (caOf m (some d))).1 with
    current := some d }, ?_, rfl⟩
  rw [tdts_nonjunction fuel m d (some e) hk]
  congr 1
  rw [htr, henters, hds]
  simp [evHook]

/-- C4 (witness): on `twoBranchArena`, the transition from leaf 2 to leaf
5 exits `[1, 0]`, enters `[3, 4]`, and runs the hooks in exactly the
claimed order. -/
theorem c4_witness :
    ∃ m', transitionDirectlyToState 1 twoBranchMachine (some 5) (some 0) =
        .ok m' ([HookCall.before 0, .exitS 2, .exitS 1, .exitS 0, .during 0,
          .entryS 3, .entryS 4, .entryS 5, .commit (some 5), .after 0,
          .enforceS 5] ++ [4, 3].map HookCall.enforceS ++ [.machEnforce]) ∧
      m'.current = some 5 :=
  c4_hook_order twoBranchMachine 2 5 0 1 0 3 4 [4, 3] 0
    (by rfl) (by rfl) (by rfl) (by rfl) (by rfl)

/-- Whenever `process_event` raises the event-not-handled error, the
machine it leaves behind is the unmodified input, the trace of hooks run
is empty, and the handler search did in fact fail. -/
theorem processEvent_enh_shape (m : Machine) (e o : Nat) (m' : Machine)
    (tr : List HookCall) (hcur : m.current = some o)
    (hpe : processEvent m e = .err .eventNotHandled m' tr) :
    m' = m ∧ tr = [] ∧
      getHandlingState m.arena e (m.arena.length + 1) o = none := by
  by_cases hgs : getHandlingState m.arena e (m.arena.length + 1) o = none
  · simp only [processEvent, hcur, hgs] at hpe
    exact ⟨(TResult.err.inj hpe).2.1.symm, (TResult.err.inj hpe).2.2.symm,
      hgs⟩
  · exfalso
    obtain ⟨h, hh⟩ := Option.ne_none_iff_exists'.mp hgs
    simp only [processEvent, hcur, hh] at hpe
    cases hrp : resolveProxy (lookupTrans m.arena h e) with
    | none =>
      simp only [hrp] at hpe
      exact TResult.noConfusion hpe
    | some p =>
      simp only [hrp] at hpe
      cases hfd : getFinalDestination m (m.arena.length + 1) (some p) with
      | none =>
        simp only [hfd] at hpe
        injection hpe with h1 h2 h3
        exact Err.noConfusion h1
      | some fd =>
        simp only [hfd] at hpe
        exact tdts_err_ne_enh _ _ _ _ _ _ hpe

/-- C5: `process_event` raises the event-not-handled error exactly when no
node on the chain from the current state (inclusive) to the root has a
table entry for the event; and whenever it raises it, no hook has run and
the machine — current state and every history slot — is returned
untouched. -/
theorem c5_event_not_handled_iff (m : Machine) (e o : Nat)
    (hwf : WF m.arena) (hcur : m.current = some o)
    (ho : o < m.arena.length) :
    ((∃ m' tr, processEvent m e = .err .eventNotHandled m' tr) ↔
      ∀ n ∈ o :: getAncestors m.arena (some o),
        lookupTrans m.arena n e = none) ∧
    (∀ m' tr, processEvent m e = .err .eventNotHandled m' tr →
      m' = m ∧ tr = []) := by
  refine ⟨⟨?_, ?_⟩, ?_⟩
  · rintro ⟨m', tr, hpe⟩
    have hgs := (processEvent_enh_shape m e o m' tr hcur hpe).2.2
    exact (ghs_none_iff m.arena hwf e o ho _ (by omega)).mp hgs
  · intro hall
    have hgs : getHandlingState m.arena e (m.arena.length + 1) o = none :=
      (ghs_none_iff m.arena hwf e o ho _ (by omega)).mpr hall
    refine ⟨m, [], ?_⟩
    simp only [processEvent, hcur, hgs]
  · intro m' tr hpe
    have hs := processEvent_enh_shape m e o m' tr hcur hpe
    exact ⟨hs.1, hs.2.1⟩

/-- C5 (witness): the one-state machine with an empty table raises on
event 5, and the raise leaves the machine unchanged with no hooks run. -/
theorem c5_witness :
    (∃ m' tr, processEvent soloMachine 5 = .err .eventNotHandled m' tr) ∧
    ∀ m' tr, processEvent soloMachine 5 = .err .eventNotHandled m' tr →
      m' = soloMachine ∧ tr = [] := by
  have h := c5_event_not_handled_iff soloMachine 5 0 (by decide) (by rfl)
    (by decide)
  exact ⟨h.1.mpr (by decide), h.2⟩

/-- C6: during the exit phase, every exited ancestor (position `i` of the
uncommon-ancestor list, nearest first) has its deep-history slot set to
the original leaf `o` and its shallow-history slot set to the direct
child it is exited through (the origin for the nearest one, otherwise its
predecessor in the list) — for an arbitrary common ancestor and an
arbitrary arena, hence independently of any preferred-entry mode. -/
theorem c6_exit_history_writes (m : Machine) (o : Nat) (ca : Option Nat)
    (hwf : WF m.arena) (ho : o < m.arena.length)
    (hdl : m.deepHist.length = m.arena.length)
    (hsl : m.shallowHist.length = m.arena.length) :
    ∀ i, i < (uncommonAncestors (getAncestors m.arena (some o)) ca).length →
      histGet (exitCurrentState m (some o) ca).1.deepHist
          ((uncommonAncestors (getAncestors m.arena (some o)) ca).getD i 0) =
        some o ∧
      histGet (exitCurrentState m (some o) ca).1.shallowHist
          ((uncommonAncestors (getAncestors m.arena (some o)) ca).getD i 0) =
        (some o ::
          (uncommonAncestors (getAncestors m.arena (some o)) ca).map
            some).getD i none :=
  exitCS_hist_spec m o ca hwf ho hdl hsl

/-- C6 (witness): exiting leaf 2 of `twoBranchArena` across the root
writes deep history 2 into both exited composites and shallow history 2
into the nearest one. -/
theorem c6_witness :
    histGet (exitCurrentState twoBranchMachine (some 2) none).1.deepHist
        ((uncommonAncestors
          (getAncestors twoBranchMachine.arena (some 2)) none).getD 0 0) =
      some 2 ∧
    histGet (exitCurrentState twoBranchMachine (some 2) none).1.shallowHist
        ((uncommonAncestors
          (getAncestors twoBranchMachine.arena (some 2)) none).getD 0 0) =
      (some 2 ::
        (uncommonAncestors
          (getAncestors twoBranchMachine.arena (some 2)) none).map
          some).getD 0 none :=
  c6_exit_history_writes twoBranchMachine 2 none (by decide) (by decide)
    (by rfl) (by rfl) 0 (by decide)

/-- C7: when the resolved target is the no-transition sentinel — the
handling node's table maps the event to `None`, or to a `Guard` whose
condition is false — `process_event` returns at once with the machine
(current state and all history slots) literally unchanged and zero hooks
run, and therefore any number of repetitions leaves it unchanged too. -/
theorem c7_internal_no_effect (m : Machine) (e o h : Nat)
    (hcur : m.current = some o)
    (hh : getHandlingState m.arena e (m.arena.length + 1) o = some h)
    (hres : lookupTrans m.arena h e = some none ∨
      ∃ s, lookupTrans m.arena h e = some (some (.toGuard false s))) :
    processEvent m e = .ok m [] ∧ ∀ n, iterProcess e n m = .ok m [] := by
  have hrp : resolveProxy (lookupTrans m.arena h e) = none := by
    rcases hres with h1 | ⟨s, h1⟩ <;> rw [h1] <;> rfl
  have h1 : processEvent m e = .ok m [] := by
    simp only [processEvent, hcur, hh, hrp]
  refine ⟨h1, fun n => ?_⟩
  induction n with
  | zero => rfl
  | succ n ih =>
    show iterProcess e (n + 1) m = .ok m []
    simp only [iterProcess, h1, ih]
    rfl

/-- C7 (witness): the false guard on `guardArena` leaves the machine
untouched for any repetition count (instantiated at the single step and
at the iterate). -/
theorem c7_witness :
    processEvent guardMachine 0 = .ok guardMachine [] ∧
    ∀ n, iterProcess 0 n guardMachine = .ok guardMachine [] :=
  c7_internal_no_effect guardMachine 0 0 0 (by rfl) (by rfl)
    (Or.inr ⟨1, by rfl⟩)

/-- C8: for two leaves `A` and `B` on a well-formed tree, the common
ancestor computed by `_get_common_ancestor` over the two ancestor chains
is exactly the deepest node common to the root-to-`A` and root-to-`B`
paths — `None` precisely when the paths share no node — and for a
self-transition (`A = B`) it is the node's own parent, so a full
exit/enter cycle of that node is forced and a self-transition is never a
no-op. -/
theorem c8_lca_deepest (as : List NodeData) (A B : Nat) (hwf : WF as)
    (hA : A < as.length) (hB : B < as.length)
    (hlA : isLeaf as A) (hlB : isLeaf as B) :
    (A = B →
      getCommonAncestor (getAncestors as (some A))
        (getAncestors as (some B)) = parentOf as A) ∧
    (A ≠ B →
      (getCommonAncestor (getAncestors as (some A))
          (getAncestors as (some B)) = none ↔ commonNodes as A B = []) ∧
      (∀ x, getCommonAncestor (getAncestors as (some A))
          (getAncestors as (some B)) = some x →
        x ∈ commonNodes as A B ∧
          ∀ y ∈ commonNodes as A B, y ≠ x →
            depth as y < depth as x)) := by
  constructor
  · intro hAB
    subst hAB
    rw [gca_self]
    exact getAncestors_head as hwf A hA
  · intro hne
    have hcn := commonNodes_eq_filter as hwf A B hA hB hlA hlB hne
    have hmem : ∀ y, y ∈ commonNodes as A B ↔
        y ∈ getAncestors as (some A) ∧ y ∈ getAncestors as (some B) := by
      intro y
      rw [hcn, List.mem_filter]
      simp
    constructor
    · unfold getCommonAncestor
      rw [List.find?_eq_none, hcn, List.filter_eq_nil]
    · intro x hfind
      unfold getCommonAncestor at hfind
      rw [List.find?_eq_some_iff_getElem] at hfind
      obtain ⟨hpx, i, hi, hxi, hprev⟩ := hfind
      have hxB : x ∈ getAncestors as (some B) := by simpa using hpx
      have hxA : x ∈ getAncestors as (some A) := by
        rw [← hxi]
        exact List.getElem_mem hi
      refine ⟨(hmem x).mpr ⟨hxA, hxB⟩, ?_⟩
      intro y hy hyx
      obtain ⟨hyA, hyB⟩ := (hmem y).mp hy
      obtain ⟨j, hj, hyj⟩ := List.mem_iff_getElem.mp hyA
      have hij : i < j := by
        rcases Nat.lt_trichotomy j i with hlt | heq | hgt
        · have hb := hprev j hlt
          rw [hyj] at hb
          simp [hyB] at hb
        · exfalso
          apply hyx
          subst heq
          rw [← hyj]
          exact hxi
        · exact hgt
      have hxlt : x < as.length := by
        have h1 := mem_getAncestors_lt as hwf A hA x hxA
        omega
      have hdropx : getAncestors as (some x) =
          (getAncestors as (some A)).drop (i + 1) := by
        have hd := getAncestors_drop as hwf A hA i hi
        rw [List.get_eq_getElem] at hd
        rw [← hd, hxi]
      have hymem : y ∈ getAncestors as (some x) := by
        rw [hdropx, ← hyj]
        have hmd := getElem_mem_drop (getAncestors as (some A)) (i + 1) j hj
          (by omega)
        simpa [List.get_eq_getElem] using hmd
      exact depth_lt_of_mem_ancestors as hwf x hxlt y hymem

/-- C8 (witness): on `lcaArena`, for the distinct leaves 2 and 3 the
computed common ancestor is node 0, which is common to both root paths
and strictly deeper than every other common node; for 2 against itself it
is 2's own parent, node 1. -/
theorem c8_witness :
    (getCommonAncestor (getAncestors lcaArena (some 2))
        (getAncestors lcaArena (some 2)) = parentOf lcaArena 2) ∧
    0 ∈ commonNodes lcaArena 2 3 ∧
    (∀ y ∈ commonNodes lcaArena 2 3, y ≠ 0 →
      depth lcaArena y < depth lcaArena 0) := by
  have hself := (c8_lca_deepest lcaArena 2 2 (by decide) (by decide)
    (by decide) (by decide) (by decide)).1 rfl
  have hdist := ((c8_lca_deepest lcaArena 2 3 (by decide) (by decide)
    (by decide) (by decide) (by decide)).2 (by decide)).2 0 (by decide)
  exact ⟨hself, hdist.1, hdist.2⟩

/-- C9: deep-history round trip.  On a well-formed machine resting on
leaf `L` inside composite `a` (deep-history mode), a first transition to
an outside destination `d1` that exits `a` (so `a` is among the uncommon
origin ancestors) writes `a`'s deep-history slot to `L`; a later event
`e2` handled with target `a` then descends through the deep-history slot
and commits `current = L` again. -/
theorem c9_deep_history_roundtrip
    (m : Machine) (L d1 a e1 e2 h2 : Nat) (st : Option Nat)
    (hwf : WF m.arena)
    (hdl : m.deepHist.length = m.arena.length)
    (hsl : m.shallowHist.length = m.arena.length)
    (hcur : m.current = some L)
    (hL : L < m.arena.length)
    (hLk : kindOf m.arena L = .simple)
    (hd1k : isJunctionKind (kindOf m.arena d1) = false)
    (ha : a ∈ uncommonAncestors (getAncestors m.arena (some L))
        (caOf m (some d1)))
    (hak : kindOf m.arena a = .composite st .deepHistory)
    (hh2 : getHandlingState m.arena e2 (m.arena.length + 1) d1 = some h2)
    (hlook : lookupTrans m.arena h2 e2 = some (some (.toState a))) :
    ∃ m1 tr1 m2 tr2,
      transitionDirectlyToState (m.arena.length + 1) m (some d1) (some e1) =
        .ok m1 tr1 ∧
      histGet m1.deepHist a = some L ∧
      processEvent m1 e2 = .ok m2 tr2 ∧
      m2.current = some L := by
  have ht1 := tdts_nonjunction m.arena.length m d1 (some e1) hd1k
  set m1 : Machine := { (exitCurrentState m m.current (caOf m (some d1))).1
    with current := some d1 } with hm1
  have hm1arena : m1.arena = m.arena := exitCS_arena ..
  have hm1deep : histGet m1.deepHist a = some L := by
    show histGet (exitCurrentState m m.current
      (caOf m (some d1))).1.deepHist a = some L
    rw [hcur]
    exact exitCS_deepHist_mem m L (caOf m (some d1)) hwf hL hdl hsl a ha
  have halen : a < m.arena.length := by
    have h1 := mem_getAncestors_lt m.arena hwf L hL a
      (mem_uncommonAncestors _ _ _ ha)
    omega
  obtain ⟨n, hn⟩ : ∃ n, m.arena.length = n + 1 :=
    ⟨m.arena.length - 1, by omega⟩
  have hakm1 : kindOf m1.arena a = .composite st .deepHistory := by
    rw [hm1arena]
    exact hak
  have hLkm1 : kindOf m1.arena L = .simple := by
    rw [hm1arena]
    exact hLk
  have hfd : getFinalDestination m1 (m1.arena.length + 1) (some a) =
      some (some L) := by
    rw [hm1arena, hn, gfd_succ_some]
    simp only [hakm1]
    rw [hm1deep, gfd_succ_some]
    simp only [hLkm1]
  have hh2m1 : getHandlingState m1.arena e2 (m1.arena.length + 1) d1 =
      some h2 := by
    rw [hm1arena]
    exact hh2
  have hrp : resolveProxy (lookupTrans m1.arena h2 e2) = some a := by
    rw [hm1arena, hlook]
    rfl
  have hpe2 : processEvent m1 e2 =
      transitionDirectlyToState (m1.arena.length + 1) m1 (some L)
        (some e2) := by
    simp only [processEvent, show m1.current = some d1 from rfl, hh2m1,
      hrp, hfd]
  have hLj : isJunctionKind (kindOf m1.arena L) = false := by
    rw [hLkm1]
    rfl
  have ht2 := tdts_nonjunction m1.arena.length m1 L (some e2) hLj
  exact ⟨m1, _, _, _, ht1, hm1deep, by rw [hpe2]; exact ht2, rfl⟩

/-- C9 (witness): on `deepHistArena` (leaf 2 inside composites 1 and 0,
root composite 0 in deep-history mode), leaving to leaf 3 with event 0
and coming back with event 1 restores `current = 2`. -/
theorem c9_witness :
    ∃ m1 tr1 m2 tr2,
      transitionDirectlyToState (deepHistMachine.arena.length + 1)
        deepHistMachine (some 3) (some 0) = .ok m1 tr1 ∧
      histGet m1.deepHist 0 = some 2 ∧
      processEvent m1 1 = .ok m2 tr2 ∧
      m2.current = some 2 :=
  c9_deep_history_roundtrip deepHistMachine 2 3 0 0 1 3 (some 1)
    (by decide) (by rfl) (by rfl) (by rfl) (by decide) (by rfl) (by rfl)
    (by decide) (by rfl) (by rfl) (by rfl)

/-- C10: constructing a machine on a (non-junction) node `s` performs one
full entry pass before returning: `on_entry` on each of `s`'s ancestors
outermost first, then on `s`; then the commit of `current = s` (exactly
the node passed in); then the enforce pass — `s`, its ancestors
nearest-to-farthest, the machine-level enforce.  No event hook and no
exit hook runs, and the history slots are still all empty. -/
theorem c10_construction_entry_pass (as : List NodeData) (s : Nat)
    (hk : isJunctionKind (kindOf as s) = false) :
    mkStateMachine as s =
      .ok ⟨as, some s, List.replicate as.length none,
          List.replicate as.length none⟩
        ((getAncestors as (some s)).reverse.map HookCall.entryS ++
          [HookCall.entryS s] ++ [HookCall.commit (some s)] ++
          (HookCall.enforceS s ::
            ((getAncestors as (some s)).map HookCall.enforceS ++
              [HookCall.machEnforce]))) := by
  show transitionDirectlyToState (as.length + 1)
    ⟨as, none, List.replicate as.length none,
      List.replicate as.length none⟩ (some s) none = _
  rw [tdts_nonjunction as.length
    ⟨as, none, List.replicate as.length none,
      List.replicate as.length none⟩ s none hk]
  congr 1
  rw [exitCS_trace_none]
  simp [evHook, caOf, uncommonAncestors]

/-- C10 (witness): constructing on leaf 2 of `lcaArena` enters 0, 1, 2,
commits 2, and enforces 2, 1, 0 and the machine. -/
theorem c10_witness :
    mkStateMachine lcaArena 2 =
      .ok ⟨lcaArena, some 2, List.replicate lcaArena.length none,
          List.replicate lcaArena.length none⟩
        ((getAncestors lcaArena (some 2)).reverse.map HookCall.entryS ++
          [HookCall.entryS 2] ++ [HookCall.commit (some 2)] ++
          (HookCall.enforceS 2 ::
            ((getAncestors lcaArena (some 2)).map HookCall.enforceS ++
              [HookCall.machEnforce]))) :=
  c10_construction_entry_pass lcaArena 2 (by rfl)
